import Mathlib

/-!
Verification development for the beats19182 scripts
(`scripts/rename_with_proper_tags.py`, `scripts/upload_to_service.py`).

Python strings are modelled as `String` / `List Char`; Python exceptions as
the `PyRes` sum; JSON values as `PyObj`; the network and the filesystem as
explicit oracle parameters.  Each definition mirrors one Python function of
the repository and keeps its name where Lean allows it.
-/

/-- Outcome of a Python expression that can raise: a value, or an exception
(the scripts catch every exception with bare `except Exception`). -/
inductive PyRes (α : Type) where
  | ok (a : α)
  | exn
deriving DecidableEq, Repr

/-- JSON-ish Python values, as produced by `json.load` / `response.json()`. -/
inductive PyObj where
  | none
  | bool (b : Bool)
  | int (n : Int)
  | str (s : String)
  | list (xs : List PyObj)
  | dict (kvs : List (String × PyObj))

/-- Python truthiness (`if result:`): `None`, `False`, `0`, the empty string, `[]`, and
an empty dict are falsy; everything else is truthy. -/
def PyObj.truthy : PyObj → Bool
  | .none => false
  | .bool b => b
  | .int n => n ≠ 0
  | .str s => s ≠ ""
  | .list xs => ¬ xs.isEmpty
  | .dict kvs => ¬ kvs.isEmpty

/-- Python `d.get(k)`: on a dict, the stored value or `None`; on any other
object an `AttributeError` is raised. -/
def PyObj.get : PyObj → String → PyRes PyObj
  | .dict kvs, k => .ok ((kvs.find? (fun p => p.1 == k)).map (·.2) |>.getD .none)
  | _, _ => .exn

/-- ASCII whitespace as recognised by Python's `str.strip` and `\s`
(the filenames handled by the scripts are ASCII). -/
def isWs (c : Char) : Bool :=
  c = ' ' || c = '\t' || c = '\n' || c = '\r' || c = '\x0b' || c = '\x0c'

/-- `str.strip()` on a character list: drop whitespace at both ends. -/
def stripWsL (s : List Char) : List Char :=
  ((s.dropWhile isWs).reverse.dropWhile isWs).reverse

/-- `str.strip()`. -/
def pyStrip (s : String) : String := (stripWsL s.toList).asString

/-- `str.lower()` (ASCII case folding, which covers the scripts' inputs). -/
def pyLower (s : String) : String := ⟨s.toList.map Char.toLower⟩

/-- Python `a in b` on strings: `a` occurs as a contiguous substring of `b`. -/
def subL (a : List Char) : List Char → Bool
  | [] => a.isEmpty
  | c :: cs => a.isPrefixOf (c :: cs) || subL a cs

/-- Python `a in b` on `String`s. -/
def pyIn (a b : String) : Bool := subL a.toList b.toList

/-! ## Filename Normalizer (`rename_files` lines 49–88)

The four `re.sub` passes are modelled as left-to-right scanners.  Each
matcher returns the rest of the input after a leftmost match at the current
position, or `none`; `subAll` is `re.sub` with an empty replacement: it deletes every
non-overlapping match, scanning left to right. -/

/-- Match a literal character sequence; returns the rest on success. -/
def stripLit : List Char → List Char → Option (List Char)
  | [], s => some s
  | _ :: _, [] => none
  | l :: ls, c :: cs => if c = l then stripLit ls cs else none

theorem stripLit_eq_some {lit s r : List Char} :
    stripLit lit s = some r ↔ s = lit ++ r := by
  induction lit generalizing s with
  | nil => simp [stripLit]
  | cons l ls ih =>
    cases s with
    | nil => simp [stripLit]
    | cons c cs =>
      simp only [stripLit]
      by_cases hc : c = l
      · subst hc; simp [ih]
      · simp [hc]

/-- ` \[\d+ bpm\]` (case-sensitive, as in the source): a space, `[`, one or
more digits, the literal ` bpm`, then `]`. -/
def matchBpmAt : List Char → Option (List Char)
  | c1 :: c2 :: rest =>
    if c1 = ' ' ∧ c2 = '[' then
      if (rest.takeWhile Char.isDigit).isEmpty then none
      else stripLit (" bpm]".toList) (rest.drop (rest.takeWhile Char.isDigit).length)
    else none
  | _ => none

/-- The `(Major|Minor|Maj|Min)\]` tail of the key pattern, with the regex
alternation order (first alternative that lets the final `]` match wins). -/
def matchQual (s : List Char) : Option (List Char) :=
  match stripLit ("Major]".toList) s with
  | some r => some r
  | none =>
    match stripLit ("Minor]".toList) s with
    | some r => some r
    | none =>
      match stripLit ("Maj]".toList) s with
      | some r => some r
      | none => stripLit ("Min]".toList) s

/-- A key letter `[A-G]`. -/
def isKeyLetter (c : Char) : Bool := 'A' ≤ c && c ≤ 'G'

/-- The optional accidental `(#|b)?` (greedy, which is equivalent here). -/
def stripAcc : List Char → List Char
  | [] => []
  | c :: r => if c = '#' ∨ c = 'b' then r else c :: r

/-- The optional alternate key `(/[A-G](#|b)?)?` (greedy, equivalent here). -/
def stripSlash (s : List Char) : List Char :=
  match s with
  | c1 :: c2 :: r => if c1 = '/' ∧ isKeyLetter c2 then stripAcc r else s
  | _ => s

/-- ` \[[A-G](#|b)?(/[A-G](#|b)?)?\s*(Major|Minor|Maj|Min)\]`. -/
def matchKeyAt : List Char → Option (List Char)
  | c1 :: c2 :: c :: rest =>
    if c1 = ' ' ∧ c2 = '[' ∧ isKeyLetter c then
      matchQual ((stripSlash (stripAcc rest)).dropWhile isWs)
    else none
  | _ => none

/-- ` \[[^\]]+\]`: a space, `[`, one or more non-`]` characters, `]`. -/
def matchAnyAt : List Char → Option (List Char)
  | c1 :: c2 :: rest =>
    if c1 = ' ' ∧ c2 = '[' then
      if (rest.takeWhile (· ≠ ']')).isEmpty then none
      else
        match rest.drop (rest.takeWhile (· ≠ ']')).length with
        | d :: r => if d = ']' then some r else none
        | [] => none
    else none
  | _ => none

/-- A bundled `re.sub`-style matcher: the match function, a proof that a
match consumes at least one character, and a proof that every match starts
with `" ["` (space then open bracket). -/
structure Matcher where
  fn : List Char → Option (List Char)
  len : ∀ s t, fn s = some t → t.length < s.length
  sb : ∀ s t, fn s = some t → ∃ u, s = ' ' :: '[' :: u

theorem matchQual_eq_some {s r : List Char} (h : matchQual s = some r) :
    s = "Major]".toList ++ r ∨ s = "Minor]".toList ++ r ∨
    s = "Maj]".toList ++ r ∨ s = "Min]".toList ++ r := by
  unfold matchQual at h
  cases h1 : stripLit ("Major]".toList) s <;> simp only [h1] at h
  · cases h2 : stripLit ("Minor]".toList) s <;> simp only [h2] at h
    · cases h3 : stripLit ("Maj]".toList) s <;> simp only [h3] at h
      · exact Or.inr (Or.inr (Or.inr (stripLit_eq_some.mp h)))
      · cases h; exact Or.inr (Or.inr (Or.inl (stripLit_eq_some.mp h3)))
    · cases h; exact Or.inr (Or.inl (stripLit_eq_some.mp h2))
  · cases h; exact Or.inl (stripLit_eq_some.mp h1)

theorem matchBpmAt_len : ∀ s t, matchBpmAt s = some t → t.length < s.length := by
  intro s t h
  match s with
  | [] => simp [matchBpmAt] at h
  | [c] => simp [matchBpmAt] at h
  | c1 :: c2 :: rest =>
    simp only [matchBpmAt] at h
    split at h
    · split at h
      · simp at h
      · have heq := stripLit_eq_some.mp h
        have hlen := congrArg List.length heq
        simp [List.length_drop] at hlen
        simp only [List.length_cons]
        omega
    · simp at h

theorem matchBpmAt_sb : ∀ s t, matchBpmAt s = some t → ∃ u, s = ' ' :: '[' :: u := by
  intro s t h
  match s with
  | [] => simp [matchBpmAt] at h
  | [c] => simp [matchBpmAt] at h
  | c1 :: c2 :: rest =>
    simp only [matchBpmAt] at h
    split at h
    · rename_i hc
      exact ⟨rest, by rw [hc.1, hc.2]⟩
    · simp at h

theorem stripAcc_len (u : List Char) : (stripAcc u).length ≤ u.length := by
  cases u with
  | nil => simp [stripAcc]
  | cons c r =>
    simp only [stripAcc]
    split <;> simp

theorem stripSlash_len (u : List Char) : (stripSlash u).length ≤ u.length := by
  match u with
  | [] => simp [stripSlash]
  | [c] => simp [stripSlash]
  | c1 :: c2 :: r =>
    simp only [stripSlash]
    split
    · have := stripAcc_len r
      simp only [List.length_cons]
      omega
    · simp

theorem matchKeyAt_len : ∀ s t, matchKeyAt s = some t → t.length < s.length := by
  intro s t h
  match s with
  | [] => simp [matchKeyAt] at h
  | [c] => simp [matchKeyAt] at h
  | [c1, c2] => simp [matchKeyAt] at h
  | c1 :: c2 :: c :: rest =>
    simp only [matchKeyAt] at h
    split at h
    · have harg : ((stripSlash (stripAcc rest)).dropWhile isWs).length ≤ rest.length := by
        calc ((stripSlash (stripAcc rest)).dropWhile isWs).length
            ≤ (stripSlash (stripAcc rest)).length := (List.dropWhile_suffix isWs).length_le
          _ ≤ (stripAcc rest).length := stripSlash_len _
          _ ≤ rest.length := stripAcc_len _
      rcases matchQual_eq_some h with he | he | he | he <;>
        (have hlen := congrArg List.length he; simp at hlen;
         simp only [List.length_cons]; omega)
    · simp at h

theorem matchKeyAt_sb : ∀ s t, matchKeyAt s = some t → ∃ u, s = ' ' :: '[' :: u := by
  intro s t h
  match s with
  | [] => simp [matchKeyAt] at h
  | [c] => simp [matchKeyAt] at h
  | [c1, c2] => simp [matchKeyAt] at h
  | c1 :: c2 :: c :: rest =>
    simp only [matchKeyAt] at h
    split at h
    · rename_i hc
      exact ⟨c :: rest, by rw [hc.1, hc.2.1]⟩
    · simp at h

theorem matchAnyAt_len : ∀ s t, matchAnyAt s = some t → t.length < s.length := by
  intro s t h
  match s with
  | [] => simp [matchAnyAt] at h
  | [c] => simp [matchAnyAt] at h
  | c1 :: c2 :: rest =>
    simp only [matchAnyAt] at h
    split at h
    · split at h
      · simp at h
      · split at h
        · rename_i d r hdr
          split at h
          · cases h
            have hlen := congrArg List.length hdr
            simp [List.length_drop] at hlen
            simp only [List.length_cons]
            omega
          · simp at h
        · simp at h
    · simp at h

theorem matchAnyAt_sb : ∀ s t, matchAnyAt s = some t → ∃ u, s = ' ' :: '[' :: u := by
  intro s t h
  match s with
  | [] => simp [matchAnyAt] at h
  | [c] => simp [matchAnyAt] at h
  | c1 :: c2 :: rest =>
    simp only [matchAnyAt] at h
    split at h
    · rename_i hc
      exact ⟨rest, by rw [hc.1, hc.2]⟩
    · simp at h

/-- The BPM pass of `rename_files`. -/
def bpmM : Matcher := ⟨matchBpmAt, matchBpmAt_len, matchBpmAt_sb⟩

/-- The key/tonality pass of `rename_files`. -/
def keyM : Matcher := ⟨matchKeyAt, matchKeyAt_len, matchKeyAt_sb⟩

/-- The generic bracketed-tag pass of `rename_files`. -/
def anyM : Matcher := ⟨matchAnyAt, matchAnyAt_len, matchAnyAt_sb⟩

/-- Fuelled left-to-right delete-all-matches scan for `re.sub`. -/
def subAllF (m : Matcher) : Nat → List Char → List Char
  | 0, s => s
  | _ + 1, [] => []
  | fuel + 1, c :: cs =>
    match m.fn (c :: cs) with
    | some r => subAllF m fuel r
    | none => c :: subAllF m fuel cs

/-- `re.sub` with an empty replacement: delete every non-overlapping match, scanning
left to right. -/
def subAll (m : Matcher) (s : List Char) : List Char := subAllF m s.length s

theorem subAllF_congr (m : Matcher) :
    ∀ f₁ f₂ s, s.length ≤ f₁ → s.length ≤ f₂ → subAllF m f₁ s = subAllF m f₂ s := by
  intro f₁
  induction f₁ with
  | zero =>
    intro f₂ s h1 _
    have : s = [] := List.length_eq_zero.mp (Nat.le_zero.mp h1)
    subst this
    cases f₂ <;> rfl
  | succ f ih =>
    intro f₂ s h1 h2
    cases s with
    | nil => cases f₂ <;> rfl
    | cons c cs =>
      cases f₂ with
      | zero => simp at h2
      | succ f₂' =>
        simp only [subAllF]
        cases hm : m.fn (c :: cs) with
        | some r =>
          have hr := m.len _ _ hm
          simp only [List.length_cons] at h1 h2 hr
          exact ih f₂' r (by omega) (by omega)
        | none =>
          simp only [List.length_cons] at h1 h2
          rw [ih f₂' cs (by omega) (by omega)]

theorem subAll_nil (m : Matcher) : subAll m [] = [] := rfl

theorem subAll_cons_some (m : Matcher) {c : Char} {cs r : List Char}
    (h : m.fn (c :: cs) = some r) : subAll m (c :: cs) = subAll m r := by
  have hr := m.len _ _ h
  simp only [List.length_cons] at hr
  unfold subAll
  simp only [List.length_cons, subAllF, h]
  exact subAllF_congr m cs.length r.length r (by omega) (le_refl _)

theorem subAll_cons_none (m : Matcher) {c : Char} {cs : List Char}
    (h : m.fn (c :: cs) = none) : subAll m (c :: cs) = c :: subAll m cs := by
  unfold subAll
  simp only [List.length_cons, subAllF, h]

theorem takeWhile_all {p : Char → Bool} :
    ∀ a : List Char, (∀ x ∈ a, p x) → a.takeWhile p = a := by
  intro a h
  induction a with
  | nil => rfl
  | cons c a' ih =>
    rw [List.takeWhile_cons, if_pos (h c (List.mem_cons_self c a'))]
    rw [ih (fun x hx => h x (List.mem_cons_of_mem _ hx))]

theorem takeWhile_append_not {p : Char → Bool} {d : Char} (hd : ¬ p d)
    (a ys : List Char) : (a ++ d :: ys).takeWhile p = a.takeWhile p := by
  induction a with
  | nil => simp [List.takeWhile_cons, hd]
  | cons c a' ih => simp only [List.cons_append, List.takeWhile_cons, ih]

theorem dropWhile_append_not {p : Char → Bool} {d : Char} (hd : ¬ p d)
    (a ys : List Char) : (a ++ d :: ys).dropWhile p = a.dropWhile p ++ d :: ys := by
  induction a with
  | nil => simp [List.dropWhile_cons, hd]
  | cons c a' ih =>
    simp only [List.cons_append, List.dropWhile_cons, ih]
    split <;> simp

/-- Two decompositions of a list at its first `]` agree. -/
theorem firstBr : ∀ (xs ys u v : List Char), ']' ∉ xs → ']' ∉ ys →
    xs ++ ']' :: u = ys ++ ']' :: v → xs = ys ∧ u = v := by
  intro xs
  induction xs with
  | nil =>
    intro ys u v _ hys h
    cases ys with
    | nil => simpa using h
    | cons y ys' =>
      simp only [List.nil_append, List.cons_append, List.cons.injEq] at h
      exact absurd (h.1 ▸ List.mem_cons_self y ys') hys
  | cons x xs' ih =>
    intro ys u v hxs hys h
    cases ys with
    | nil =>
      simp only [List.cons_append, List.nil_append, List.cons.injEq] at h
      exact absurd (show ']' ∈ x :: xs' by rw [h.1]; exact List.mem_cons_self _ _) hxs
    | cons y ys' =>
      simp only [List.cons_append, List.cons.injEq] at h
      obtain ⟨h1, h2⟩ := h
      obtain ⟨e1, e2⟩ := ih ys' u v (fun hm => hxs (List.mem_cons_of_mem _ hm))
        (fun hm => hys (List.mem_cons_of_mem _ hm)) h2
      exact ⟨by rw [h1, e1], e2⟩

theorem subAll_append_nb (m : Matcher) :
    ∀ (v s : List Char), '[' ∉ v → s.head? ≠ some '[' →
      subAll m (v ++ s) = v ++ subAll m s := by
  intro v
  induction v with
  | nil => simp
  | cons c v' ih =>
    intro s hv hs
    have hnone : m.fn (c :: (v' ++ s)) = none := by
      cases hm : m.fn (c :: (v' ++ s)) with
      | none => rfl
      | some t =>
        obtain ⟨u, hu⟩ := m.sb _ _ hm
        have h2 : v' ++ s = '[' :: u := by
          injection hu with _ h2
        cases v' with
        | nil =>
          rw [List.nil_append] at h2
          exact absurd (by rw [h2]; rfl) hs
        | cons b v'' =>
          rw [List.cons_append] at h2
          injection h2 with hb _
          exact absurd (hb ▸ List.mem_cons_self b v'') (fun hm' => hv (List.mem_cons_of_mem _ hm'))
    rw [List.cons_append, subAll_cons_none m hnone,
      ih s (fun h => hv (List.mem_cons_of_mem _ h)) hs, List.cons_append]

/-- The concatenation of space-bracketed annotation groups `" [a]"`. -/
def annConcat (gs : List (List Char)) : List Char :=
  (gs.map (fun a => ' ' :: '[' :: (a ++ [']']))).flatten

/-- Well-formed annotation groups: non-empty interiors without brackets. -/
def GroupsOK (gs : List (List Char)) : Prop :=
  ∀ a ∈ gs, a ≠ [] ∧ '[' ∉ a ∧ ']' ∉ a

instance (gs : List (List Char)) : Decidable (GroupsOK gs) :=
  inferInstanceAs (Decidable (∀ a ∈ gs, a ≠ [] ∧ '[' ∉ a ∧ ']' ∉ a))

theorem annConcat_cons (a : List Char) (gs : List (List Char)) :
    annConcat (a :: gs) = ' ' :: '[' :: (a ++ ']' :: annConcat gs) := by
  simp [annConcat]

theorem matchBpmAt_group {a rest r : List Char} (ha : ']' ∉ a)
    (h : matchBpmAt (' ' :: '[' :: (a ++ ']' :: rest)) = some r) : r = rest := by
  have hds : (a ++ ']' :: rest).takeWhile Char.isDigit = a.takeWhile Char.isDigit :=
    takeWhile_append_not (by decide) a rest
  have hk : (a.takeWhile Char.isDigit).length ≤ a.length :=
    ( List.takeWhile_prefix _).length_le
  simp only [matchBpmAt, hds, and_self, if_true] at h
  split at h
  · simp at h
  · have heq := stripLit_eq_some.mp h
    rw [List.drop_append_of_le_length hk] at heq
    have heq2 : a.drop (a.takeWhile Char.isDigit).length ++ ']' :: rest =
        " bpm".toList ++ ']' :: r := by
      rw [heq]; rfl
    have hsub : ']' ∉ a.drop (a.takeWhile Char.isDigit).length :=
      fun hm => ha (List.drop_subset _ _ hm)
    exact (firstBr _ _ _ _ hsub (by decide) heq2).2.symm

theorem stripAcc_inv (u ys : List Char) :
    ∃ u', u' <:+ u ∧ stripAcc (u ++ ']' :: ys) = u' ++ ']' :: ys := by
  cases u with
  | nil =>
    refine ⟨[], List.nil_suffix, ?_⟩
    simp [stripAcc]
  | cons c u'' =>
    simp only [List.cons_append, stripAcc]
    split
    · exact ⟨u'', List.suffix_cons c u'', rfl⟩
    · exact ⟨c :: u'', List.suffix_refl _, rfl⟩

theorem stripSlash_inv (u ys : List Char) :
    ∃ u', u' <:+ u ∧ stripSlash (u ++ ']' :: ys) = u' ++ ']' :: ys := by
  match u with
  | [] =>
    refine ⟨[], List.nil_suffix, ?_⟩
    cases ys with
    | nil => rfl
    | cons y ys' =>
      show (if (']' = '/' ∧ isKeyLetter y) then stripAcc ys' else ']' :: y :: ys') =
        ']' :: y :: ys'
      rw [if_neg]
      rintro ⟨h, -⟩
      exact absurd h (by decide)
  | [c] =>
    refine ⟨[c], List.suffix_refl _, ?_⟩
    show (if (c = '/' ∧ isKeyLetter ']') then stripAcc ys else c :: ']' :: ys) =
      c :: ']' :: ys
    rw [if_neg]
    rintro ⟨-, h⟩
    exact absurd h (by decide)
  | c1 :: c2 :: u'' =>
    have hred : stripSlash (c1 :: c2 :: (u'' ++ ']' :: ys)) =
        if (c1 = '/' ∧ isKeyLetter c2) then stripAcc (u'' ++ ']' :: ys)
        else c1 :: c2 :: (u'' ++ ']' :: ys) := rfl
    by_cases hc : c1 = '/' ∧ isKeyLetter c2
    · rw [List.cons_append, List.cons_append, hred, if_pos hc]
      obtain ⟨u', hsuf, heq⟩ := stripAcc_inv u'' ys
      exact ⟨u', hsuf.trans ((List.suffix_cons c2 u'').trans (List.suffix_cons c1 _)), heq⟩
    · rw [List.cons_append, List.cons_append, hred, if_neg hc]
      exact ⟨c1 :: c2 :: u'', List.suffix_refl _, by rw [List.cons_append, List.cons_append]⟩

theorem matchKeyAt_group {a rest r : List Char} (ha : ']' ∉ a)
    (h : matchKeyAt (' ' :: '[' :: (a ++ ']' :: rest)) = some r) : r = rest := by
  cases a with
  | nil =>
    rw [List.nil_append] at h
    simp only [matchKeyAt] at h
    rw [if_neg] at h
    · simp at h
    · rintro ⟨-, -, hk⟩
      exact absurd hk (by decide)
  | cons c a' =>
    rw [List.cons_append] at h
    simp only [matchKeyAt] at h
    split at h
    · obtain ⟨u1, hs1, he1⟩ := stripAcc_inv a' rest
      rw [he1] at h
      obtain ⟨u2, hs2, he2⟩ := stripSlash_inv u1 rest
      rw [he2] at h
      rw [dropWhile_append_not (by decide) u2 rest] at h
      have hmem : ']' ∉ u2.dropWhile isWs := fun hm =>
        ha (List.mem_cons_of_mem _
          (hs1.sublist.subset (hs2.sublist.subset ((List.dropWhile_suffix isWs).sublist.subset hm))))
      rcases matchQual_eq_some h with he | he | he | he
      · have he2 : u2.dropWhile isWs ++ ']' :: rest = "Major".toList ++ ']' :: r := by
          rw [he]; rfl
        exact (firstBr _ _ _ _ hmem (by decide) he2).2.symm
      · have he2 : u2.dropWhile isWs ++ ']' :: rest = "Minor".toList ++ ']' :: r := by
          rw [he]; rfl
        exact (firstBr _ _ _ _ hmem (by decide) he2).2.symm
      · have he2 : u2.dropWhile isWs ++ ']' :: rest = "Maj".toList ++ ']' :: r := by
          rw [he]; rfl
        exact (firstBr _ _ _ _ hmem (by decide) he2).2.symm
      · have he2 : u2.dropWhile isWs ++ ']' :: rest = "Min".toList ++ ']' :: r := by
          rw [he]; rfl
        exact (firstBr _ _ _ _ hmem (by decide) he2).2.symm
    · simp at h

theorem matchAnyAt_group {a rest : List Char} (ha : ']' ∉ a) (hne : a ≠ []) :
    matchAnyAt (' ' :: '[' :: (a ++ ']' :: rest)) = some rest := by
  have htw : (a ++ ']' :: rest).takeWhile (· ≠ ']') = a := by
    rw [takeWhile_append_not (by simp) a rest]
    exact takeWhile_all a (fun x hx => by
      simp only [ne_eq, decide_eq_true_eq]
      exact fun he => ha (he ▸ hx))
  simp only [matchAnyAt, and_self, if_true, htw]
  rw [if_neg (by simp [hne])]
  rw [List.drop_left]
  simp

theorem subAll_no_groups (m : Matcher) (ext : List Char) (hext : '[' ∉ ext) :
    subAll m ext = ext := by
  have h := subAll_append_nb m ext [] hext (by simp)
  simpa [subAll_nil] using h

theorem subAll_groups (m : Matcher)
    (hg : ∀ a rest r, ']' ∉ a → m.fn (' ' :: '[' :: (a ++ ']' :: rest)) = some r → r = rest) :
    ∀ gs ext, GroupsOK gs → '[' ∉ ext →
      ∃ gs', GroupsOK gs' ∧ subAll m (annConcat gs ++ ext) = annConcat gs' ++ ext := by
  intro gs
  induction gs with
  | nil =>
    intro ext _ hext
    refine ⟨[], fun a ha => absurd ha (List.not_mem_nil a), ?_⟩
    rw [show annConcat [] = [] from rfl, List.nil_append]
    exact subAll_no_groups m ext hext
  | cons a gs' ih =>
    intro ext hok hext
    obtain ⟨hane, hanb, hanr⟩ := hok a (List.mem_cons_self a gs')
    have hok' : GroupsOK gs' := fun b hb => hok b (List.mem_cons_of_mem _ hb)
    rw [annConcat_cons, List.cons_append, List.cons_append, List.append_assoc]
    cases hm : m.fn (' ' :: '[' :: (a ++ (']' :: annConcat gs' ++ ext))) with
    | some r =>
      have hm' : m.fn (' ' :: '[' :: (a ++ ']' :: (annConcat gs' ++ ext))) = some r := hm
      have hr := hg a (annConcat gs' ++ ext) r hanr hm'
      rw [subAll_cons_some m hm, hr]
      exact ih ext hok' hext
    | none =>
      rw [subAll_cons_none m hm]
      have hnone2 : m.fn ('[' :: (a ++ (']' :: annConcat gs' ++ ext))) = none := by
        cases hm2 : m.fn ('[' :: (a ++ (']' :: annConcat gs' ++ ext))) with
        | none => rfl
        | some t =>
          obtain ⟨u, hu⟩ := m.sb _ _ hm2
          injection hu with hc _
          exact absurd hc (by decide)
      rw [subAll_cons_none m hnone2]
      have hnb : '[' ∉ a ++ [']'] := by
        intro hmem
        rcases List.mem_append.mp hmem with h | h
        · exact hanb h
        · simp at h
      have hhd : (annConcat gs' ++ ext).head? ≠ some '[' := by
        cases gs' with
        | nil =>
          rw [show annConcat [] = [] from rfl, List.nil_append]
          cases ext with
          | nil => simp
          | cons e ext' =>
            simp only [List.head?_cons, ne_eq, Option.some.injEq]
            exact fun he => hext (he ▸ List.mem_cons_self e ext')
        | cons b gs'' =>
          rw [annConcat_cons, List.cons_append]
          simp
      have hskip : subAll m ((a ++ [']']) ++ (annConcat gs' ++ ext)) =
          (a ++ [']']) ++ subAll m (annConcat gs' ++ ext) :=
        subAll_append_nb m (a ++ [']']) (annConcat gs' ++ ext) hnb hhd
      have hre : a ++ (']' :: annConcat gs' ++ ext) = (a ++ [']']) ++ (annConcat gs' ++ ext) := by
        simp
      rw [hre, hskip]
      obtain ⟨gs₂, hok₂, heq₂⟩ := ih ext hok' hext
      refine ⟨a :: gs₂, ?_, ?_⟩
      · intro b hb
        rcases List.mem_cons.mp hb with h | h
        · exact h ▸ ⟨hane, hanb, hanr⟩
        · exact hok₂ b h
      · rw [heq₂, annConcat_cons]
        simp

theorem subAll_any_groups :
    ∀ gs ext, GroupsOK gs → '[' ∉ ext → subAll anyM (annConcat gs ++ ext) = ext := by
  intro gs
  induction gs with
  | nil =>
    intro ext _ hext
    rw [show annConcat [] = [] from rfl, List.nil_append]
    exact subAll_no_groups anyM ext hext
  | cons a gs' ih =>
    intro ext hok hext
    obtain ⟨hane, hanb, hanr⟩ := hok a (List.mem_cons_self a gs')
    rw [annConcat_cons, List.cons_append, List.cons_append, List.append_assoc]
    have hm : anyM.fn (' ' :: '[' :: (a ++ (']' :: annConcat gs' ++ ext))) =
        some (annConcat gs' ++ ext) := matchAnyAt_group hanr hane
    rw [subAll_cons_some anyM hm]
    exact ih ext (fun b hb => hok b (List.mem_cons_of_mem _ hb)) hext

/-! ## `os.path.splitext` (no directory separators, as used on plain
filenames): split at the last dot, unless every character before it is a
dot. -/

/-- Index of the last `.` in the list, if any. -/
def rfindDot : List Char → Option Nat
  | [] => none
  | c :: cs =>
    match rfindDot cs with
    | some i => some (i + 1)
    | none => if c = '.' then some 0 else none

/-- `os.path.splitext` on a separator-free filename. -/
def splitext (s : List Char) : List Char × List Char :=
  match rfindDot s with
  | none => (s, [])
  | some i => if (s.take i).any (· ≠ '.') then (s.take i, s.drop i) else (s, [])

theorem rfindDot_append_of_some {ys : List Char} {j : Nat} (h : rfindDot ys = some j) :
    ∀ xs : List Char, rfindDot (xs ++ ys) = some (xs.length + j) := by
  intro xs
  induction xs with
  | nil => simpa using h
  | cons c xs' ih =>
    have hstep : rfindDot (c :: (xs' ++ ys)) = some (xs'.length + j + 1) := by
      unfold rfindDot
      rw [ih]
    rw [List.cons_append, hstep, List.length_cons]
    exact congrArg some (by omega)

theorem rfindDot_none_of_no_dot : ∀ {l : List Char}, '.' ∉ l → rfindDot l = none := by
  intro l h
  induction l with
  | nil => rfl
  | cons c cs ih =>
    simp only [rfindDot, ih (fun hm => h (List.mem_cons_of_mem _ hm))]
    rw [if_neg]
    intro he
    exact h (he ▸ List.mem_cons_self c cs)

theorem splitext_append_ext {b tail : List Char} (hb : ∃ c ∈ b, c ≠ '.')
    (ht : '.' ∉ tail) : splitext (b ++ '.' :: tail) = (b, '.' :: tail) := by
  have h1 : rfindDot ('.' :: tail) = some 0 := by
    simp [rfindDot, rfindDot_none_of_no_dot ht]
  have h2 : rfindDot (b ++ '.' :: tail) = some b.length := by
    simpa using rfindDot_append_of_some h1 b
  have h3 : (b ++ '.' :: tail).take b.length = b := List.take_left b _
  have h4 : (b ++ '.' :: tail).drop b.length = '.' :: tail := List.drop_left b _
  have hany : b.any (· ≠ '.') = true := by
    rw [List.any_eq_true]
    obtain ⟨c, hc, hcne⟩ := hb
    exact ⟨c, hc, by simpa using hcne⟩
  simp only [splitext, h2, h3, h4, hany, if_true]

/-! ## The Filename Normalizer itself (`rename_files`, lines 76–88) -/

/-- The removed leading token `"mateo_19182 - "` of `prefix_pattern`. -/
def prefLit : List Char := "mateo_19182 - ".toList

/-- The `prefix_pattern` substitution with `re.IGNORECASE`:
remove the leading token when it is present case-insensitively. -/
def stripPrefixCI (f : List Char) : List Char :=
  if (f.take prefLit.length).map Char.toLower = prefLit then f.drop prefLit.length else f

/-- Lines 76–88 of `rename_files`: the prefix strip, the three bracket
passes in source order (BPM, key, generic), `os.path.splitext`, and
`str.strip` on the stem. -/
def normalizeL (f : List Char) : List Char × List Char :=
  (stripWsL (splitext (subAll anyM (subAll keyM (subAll bpmM (stripPrefixCI f))))).1,
   (splitext (subAll anyM (subAll keyM (subAll bpmM (stripPrefixCI f))))).2)

/-- The normalizer on `String`s: raw filename to `(base_name, extension)`. -/
def normalizeFilename (f : String) : String × String :=
  ((normalizeL f.toList).1.asString, (normalizeL f.toList).2.asString)


/-! ## Tag Index, Matcher, Renamer (`rename_with_proper_tags.py`) -/

/-- Lines 96–103 of `rename_files`: the substring-fallback loop over the
index in its stored order; first key related to the base name by the
bidirectional case-insensitive substring test wins. -/
def findSubstrMatch : List (String × List String) → String → List String
  | [], _ => []
  | (k, v) :: rest, base =>
    if pyIn (pyLower k) (pyLower base) || pyIn (pyLower base) (pyLower k) then v
    else findSubstrMatch rest base

/-- Lines 90–103 of `rename_files`: `base_name.lower() in mapping` followed
by indexing, else the substring-fallback loop. -/
def matchTags (m : List (String × List String)) (base : String) : List String :=
  match (m.find? (fun p => p.1 == pyLower base)).map (·.2) with
  | some v => v
  | none => findSubstrMatch m base

/-- Python `' '.join`. -/
def spaceJoin : List String → String
  | [] => ""
  | x :: xs => xs.foldl (fun acc y => acc ++ " " ++ y) x

/-- Lines 105–110 of `rename_files`: compose the output filename from the
stem, the matched tags and the extension. -/
def composeFilename (base ext : String) (tags : List String) : String :=
  if tags.isEmpty then base ++ ext
  else base ++ " " ++ spaceJoin (tags.map (fun t => "[" ++ t ++ "]")) ++ ext

/-- The per-file pipeline of `rename_files`: normalize, match, compose. -/
def processFilename (m : List (String × List String)) (filename : String) : String :=
  composeFilename (normalizeFilename filename).1 (normalizeFilename filename).2
    (matchTags m (normalizeFilename filename).1)

/-- One parsed element of the mapping JSON array, at the input format the
spec states (section 6: array of objects with `filename` and `tags`). -/
structure TagItem where
  filename : String
  tags : List String

/-- Python dict assignment `m[k] = v`: overwrite in place, else append. -/
def dictSet (m : List (String × List String)) (k : String) (v : List String) :
    List (String × List String) :=
  if m.any (fun p => p.1 == k) then m.map (fun p => if p.1 == k then (k, v) else p)
  else m ++ [(k, v)]

/-- `load_name_tags_mapping`: build the name→tags dict from the parsed
JSON (`.exn` covers an unreadable file and malformed JSON — both are
caught and give `{}`); keys are stripped, lower-cased, and skipped when
empty. -/
def load_name_tags_mapping : PyRes (List TagItem) → List (String × List String)
  | .exn => []
  | .ok data =>
    data.foldl (fun m it =>
      if pyLower (pyStrip it.filename) = "" then m
      else dictSet m (pyLower (pyStrip it.filename)) it.tags) []

/-- `os.path.join` for the paths the script builds. -/
def pathJoin (d f : String) : String := d ++ "/" ++ f

/-- The lower-cased-endswith test against `.mp3` / `.wav` / `.m4a`. -/
def endsWithAudioRename (filename : String) : Bool :=
  [".mp3", ".wav", ".m4a"].any (fun e => e.toList.isSuffixOf (filename.toList.map Char.toLower))

/-- The filesystem and counters threaded through `rename_files`; file
contents are abstract values, `copies` records the performed `copy2`
calls in order. -/
structure RenameState where
  fs : String → Option Nat
  renames : Nat
  errors : Nat
  copies : List (String × String)

/-- The loop body of `rename_files` (lines 65–121): skip non-files and
non-audio names, compute the new name, `shutil.copy2` to the output
directory (copying to the identical path raises `SameFileError`, caught
by the per-file handler and counted as an error). -/
def renameStep (inDir outDir : String) (m : List (String × List String))
    (st : RenameState) (filename : String) : RenameState :=
  if (st.fs (pathJoin inDir filename)).isSome && endsWithAudioRename filename then
    if pathJoin inDir filename = pathJoin outDir (processFilename m filename) then
      { st with errors := st.errors + 1 }
    else
      { fs := fun p => if p = pathJoin outDir (processFilename m filename)
          then st.fs (pathJoin inDir filename) else st.fs p,
        renames := st.renames + 1,
        errors := st.errors,
        copies := st.copies ++
          [(pathJoin inDir filename, pathJoin outDir (processFilename m filename))] }
  else st

/-- `rename_files`: fold the per-file step over the directory listing. -/
def rename_files (inDir outDir : String) (m : List (String × List String))
    (listing : List String) (fs0 : String → Option Nat) : RenameState :=
  listing.foldl (renameStep inDir outDir m) ⟨fs0, 0, 0, []⟩

/-- Result of the renamer's `main`: aborted before touching files, or ran. -/
inductive MainRes where
  | aborted
  | ran (st : RenameState)

/-- The copies performed by a `main` run. -/
def MainRes.copies : MainRes → List (String × String)
  | .aborted => []
  | .ran st => st.copies

/-- The filesystem after a `main` run. -/
def MainRes.finalFS (r : MainRes) (fs0 : String → Option Nat) : String → Option Nat :=
  match r with
  | .aborted => fs0
  | .ran st => st.fs

/-- `main` of `rename_with_proper_tags.py` (lines 142–157): input-directory
check, tags-file check, mapping load, empty-mapping check, then
`rename_files`. -/
def main_rename (inputDirExists tagsFileExists : Bool) (readJson : PyRes (List TagItem))
    (inDir outDir : String) (listing : List String)
    (fs0 : String → Option Nat) : MainRes :=
  if inputDirExists = false then .aborted
  else if tagsFileExists = false then .aborted
  else if (load_name_tags_mapping readJson).isEmpty then .aborted
  else .ran (rename_files inDir outDir (load_name_tags_mapping readJson) listing fs0)

/-! ## Upload Client (`upload_to_service.py`) -/

/-- `re.findall` for the pattern `\[([^\]]+)\]`, fuelled scanner: at each `[`,
take the maximal run of non-`]` characters; a non-empty run followed by
`]` is one captured tag and scanning resumes after it, otherwise the scan
advances one character. -/
def extractTagsF : Nat → List Char → List (List Char)
  | 0, _ => []
  | _ + 1, [] => []
  | fuel + 1, c :: cs =>
    if c = '[' then
      if (cs.takeWhile (· ≠ ']')).isEmpty then extractTagsF fuel cs
      else
        match cs.drop (cs.takeWhile (· ≠ ']')).length with
        | d :: r =>
          if d = ']' then cs.takeWhile (· ≠ ']') :: extractTagsF fuel r
          else extractTagsF fuel cs
        | [] => extractTagsF fuel cs
    else extractTagsF fuel cs

/-- `re.findall` for the pattern `\[([^\]]+)\]` on a character list. -/
def extractTagsL (s : List Char) : List (List Char) := extractTagsF s.length s

/-- Lines 148–154 of `upload_file`: the tags re-derived from a filename. -/
def extractTags (s : String) : List String := (extractTagsL s.toList).map List.asString

/-- `os.path.basename`. -/
def pathBasename (s : String) : String :=
  ((s.toList.reverse.takeWhile (· ≠ '/')).reverse).asString

/-- An HTTP response as the scripts consume it: status, the outcome of
`.json()`, and the cookies it sets on the session. -/
structure Response where
  status_code : Nat
  jsonBody : PyRes PyObj
  cookies : List (String × String)

/-- The upload oracle: opening the local file, and POSTing it with its
extracted tags to the upload endpoint. -/
structure UploadEnv where
  openFile : String → PyRes Unit
  post : String → List String → PyRes Response

/-- `upload_file` (lines 130–179): open the file, extract the bracket tags
from the basename, POST, and return the parsed payload on a 200/201
response; every exception and every other status yields `None`. -/
def upload_file (env : UploadEnv) (file_path : String) : Option PyObj :=
  match env.openFile file_path with
  | .exn => none
  | .ok _ =>
    match env.post file_path (extractTags (pathBasename file_path)) with
    | .exn => none
    | .ok r =>
      if r.status_code = 200 || r.status_code = 201 then
        match r.jsonBody with
        | .ok v => some v
        | .exn => none
      else none

/-- The upload tool's audio extension allow-list. -/
def upload_audio_exts : List String := [".mp3", ".wav", ".ogg", ".m4a", ".flac", ".aac"]

/-- `any(file.lower().endswith(ext) for ext in audio_extensions)`. -/
def isAudioUpload (f : String) : Bool :=
  upload_audio_exts.any (fun e => e.toList.isSuffixOf (f.toList.map Char.toLower))

/-- `upload_directory` (lines 181–215): filter the walked files to audio,
upload each in order, count a truthy result as success and anything else
as an error (`if result:`). -/
def upload_directory (env : UploadEnv) (walkFiles : List String) : Nat × Nat :=
  (walkFiles.filter isAudioUpload).foldl
    (fun acc fp =>
      match upload_file env fp with
      | some v => if v.truthy then (acc.1 + 1, acc.2) else (acc.1, acc.2 + 1)
      | none => (acc.1, acc.2 + 1)) (0, 0)

/-- The criterion `upload_directory` actually counts as a success, spelled
directly on the oracle: the open succeeded, the POST returned status 200
or 201, and `.json()` returned a truthy payload. -/
def uploadSuccB (env : UploadEnv) (f : String) : Bool :=
  match env.openFile f with
  | .exn => false
  | .ok _ =>
    match env.post f (extractTags (pathBasename f)) with
    | .exn => false
    | .ok r =>
      (r.status_code = 200 || r.status_code = 201) &&
        (match r.jsonBody with
         | .ok v => v.truthy
         | .exn => false)

/-! ## Auth Client (`upload_to_service.py`, lines 14–128) -/

/-- An HTTP request the auth client can issue. -/
inductive Req where
  | get (url : String)
  | post (url : String) (payload : List (String × PyObj))

/-- The network oracle for the auth client. -/
structure AuthEnv where
  req : Req → PyRes Response

/-- Setting one cookie on the session jar (overwrite by name or append). -/
def setCookie (jar : List (String × String)) (n v : String) : List (String × String) :=
  if jar.any (fun p => p.1 == n) then jar.map (fun p => if p.1 == n then (n, v) else p)
  else jar ++ [(n, v)]

/-- Merging a response's cookies into the session jar. -/
def updateJar (jar : List (String × String)) (cs : List (String × String)) :
    List (String × String) :=
  cs.foldl (fun j p => setCookie j p.1 p.2) jar

/-- The cookie scan shared by all three login functions: the first cookie
whose name contains the marker `next-auth.session-token`. -/
def findSessionCookie (jar : List (String × String)) : Option String :=
  (jar.find? (fun p => pyIn "next-auth.session-token" p.1)).map (·.2)

/-- Outcome of one authentication strategy: the returned token, the
session jar afterwards, and the requests that were issued. -/
structure StratResult where
  token : Option String
  jar : List (String × String)
  trace : List Req

def csrfUrl (base : String) : String := base ++ "/api/auth/csrf"

def signinUrl (base : String) : String := base ++ "/api/auth/signin/credentials"

def callbackUrl (base : String) : String := base ++ "/api/auth/callback/credentials"

/-- The `login_data` payload of `login_nextauth`. -/
def nextauthData (base email password : String) (tok : PyObj) : List (String × PyObj) :=
  [("email", .str email), ("password", .str password), ("redirect", .str "false"),
   ("csrfToken", tok), ("callbackUrl", .str base), ("json", .str "true")]

/-- `login_nextauth` (lines 41–98): CSRF fetch, token extraction and
truthiness check, signin POST, callback POST, cookie scan; every failure
or caught exception returns `None`. -/
def login_nextauth (env : AuthEnv) (base email password : String)
    (jar : List (String × String)) : StratResult :=
  match env.req (.get (csrfUrl base)) with
  | .exn => ⟨none, jar, [.get (csrfUrl base)]⟩
  | .ok csrf_response =>
    if csrf_response.status_code ≠ 200 then
      ⟨none, updateJar jar csrf_response.cookies, [.get (csrfUrl base)]⟩
    else
      match csrf_response.jsonBody with
      | .exn => ⟨none, updateJar jar csrf_response.cookies, [.get (csrfUrl base)]⟩
      | .ok csrf_data =>
        match csrf_data.get "csrfToken" with
        | .exn => ⟨none, updateJar jar csrf_response.cookies, [.get (csrfUrl base)]⟩
        | .ok tok =>
          if tok.truthy = false then
            ⟨none, updateJar jar csrf_response.cookies, [.get (csrfUrl base)]⟩
          else
            match env.req (.post (signinUrl base) (nextauthData base email password tok)) with
            | .exn =>
              ⟨none, updateJar jar csrf_response.cookies,
                [.get (csrfUrl base),
                 .post (signinUrl base) (nextauthData base email password tok)]⟩
            | .ok signin_response =>
              if signin_response.status_code ≠ 200 then
                ⟨none,
                 updateJar (updateJar jar csrf_response.cookies) signin_response.cookies,
                 [.get (csrfUrl base),
                  .post (signinUrl base) (nextauthData base email password tok)]⟩
              else
                match env.req (.post (callbackUrl base)
                    (nextauthData base email password tok)) with
                | .exn =>
                  ⟨none,
                   updateJar (updateJar jar csrf_response.cookies) signin_response.cookies,
                   [.get (csrfUrl base),
                    .post (signinUrl base) (nextauthData base email password tok),
                    .post (callbackUrl base) (nextauthData base email password tok)]⟩
                | .ok cb =>
                  if cb.status_code = 200 then
                    ⟨findSessionCookie
                        (updateJar (updateJar (updateJar jar csrf_response.cookies)
                          signin_response.cookies) cb.cookies),
                     updateJar (updateJar (updateJar jar csrf_response.cookies)
                       signin_response.cookies) cb.cookies,
                     [.get (csrfUrl base),
                      .post (signinUrl base) (nextauthData base email password tok),
                      .post (callbackUrl base) (nextauthData base email password tok)]⟩
                  else
                    ⟨none,
                     updateJar (updateJar (updateJar jar csrf_response.cookies)
                       signin_response.cookies) cb.cookies,
                     [.get (csrfUrl base),
                      .post (signinUrl base) (nextauthData base email password tok),
                      .post (callbackUrl base) (nextauthData base email password tok)]⟩

/-- The `login_data` payload of `login_direct`. -/
def directData (base email password : String) : List (String × PyObj) :=
  [("email", .str email), ("password", .str password), ("redirect", .str "false"),
   ("callbackUrl", .str base)]

/-- `login_direct` (lines 100–128): a single POST to the callback endpoint
followed by the cookie scan, performed whatever the response status; a
caught exception returns `None`. -/
def login_direct (env : AuthEnv) (base email password : String)
    (jar : List (String × String)) : StratResult :=
  match env.req (.post (callbackUrl base) (directData base email password)) with
  | .exn => ⟨none, jar, [.post (callbackUrl base) (directData base email password)]⟩
  | .ok r =>
    ⟨findSessionCookie (updateJar jar r.cookies), updateJar jar r.cookies,
     [.post (callbackUrl base) (directData base email password)]⟩

/-- `login` (lines 14–39): try the NextAuth flow; on a falsy token
(`if token:`) fall through to the direct login. -/
def login (env : AuthEnv) (base email password : String)
    (jar : List (String × String)) : StratResult :=
  match login_nextauth env base email password jar with
  | r =>
    match r.token with
    | some t =>
      if t ≠ "" then r
      else
        match login_direct env base email password r.jar with
        | d => ⟨d.token, d.jar, r.trace ++ d.trace⟩
    | none =>
      match login_direct env base email password r.jar with
      | d => ⟨d.token, d.jar, r.trace ++ d.trace⟩

/-! ## Supporting lemmas -/

theorem toNat_ofNat_valid {n : Nat} (h : n < 55296) : (Char.ofNat n).toNat = n := by
  have hv : n.isValidChar := Or.inl h
  rw [Char.ofNat, dif_pos hv]
  simp [Char.ofNatAux, Char.toNat]
  rfl

theorem char_toLower_idem (c : Char) : Char.toLower (Char.toLower c) = Char.toLower c := by
  unfold Char.toLower
  by_cases h : c.toNat ≥ 65 ∧ c.toNat ≤ 90
  · rw [if_pos h]
    have hval : (Char.ofNat (c.toNat + 32)).toNat = c.toNat + 32 :=
      toNat_ofNat_valid (by omega)
    rw [if_neg (by omega)]
  · rw [if_neg h, if_neg h]

theorem pyLower_idem (s : String) : pyLower (pyLower s) = pyLower s := by
  unfold pyLower
  apply congrArg
  show (String.toList ⟨s.toList.map Char.toLower⟩).map Char.toLower = s.toList.map Char.toLower
  rw [show String.toList ⟨s.toList.map Char.toLower⟩ = s.toList.map Char.toLower from rfl]
  rw [List.map_map]
  exact List.map_congr_left (fun c _ => char_toLower_idem c)

theorem subL_nil_left : ∀ l : List Char, subL [] l = true := by
  intro l
  cases l <;> simp [subL, List.isPrefixOf]

theorem subL_iff {a : List Char} : ∀ {b : List Char}, subL a b = true ↔ a <:+: b := by
  intro b
  induction b with
  | nil => simp [subL, List.isEmpty_iff]
  | cons c cs ih =>
    show (a.isPrefixOf (c :: cs) || subL a cs) = true ↔ a <:+: c :: cs
    rw [Bool.or_eq_true, ih, List.isPrefixOf_iff_prefix, List.infix_cons_iff]

theorem pyIn_iff {a b : String} : pyIn a b = true ↔ a.toList <:+: b.toList := subL_iff

/-! ## Claim C4 -/

/-- C4: for every filename built from the fixed prefix, a bracket-free stem,
any sequence of well-formed bracketed annotations (which covers the BPM,
musical-key and generic patterns), and an audio extension, normalization
removes exactly those annotations and nothing else, then trims surrounding
whitespace and splits off the extension; in particular
`"mateo_19182 - Intro [128 bpm] [C Major] [Dark].mp3"` normalizes to base
name `"Intro"` with extension `".mp3"`. -/
theorem C4_normalizer_removes_annotations
    (bse : List Char) (anns : List (List Char)) (ext : List Char)
    (hext : ext = ".mp3".toList ∨ ext = ".wav".toList ∨ ext = ".m4a".toList)
    (hb : '[' ∉ bse) (hdot : ∃ c ∈ bse, c ≠ '.')
    (hanns : GroupsOK anns) :
    normalizeL (prefLit ++ (bse ++ (annConcat anns ++ ext))) = (stripWsL bse, ext)
    ∧ normalizeFilename "mateo_19182 - Intro [128 bpm] [C Major] [Dark].mp3" =
      ("Intro", ".mp3") := by
  refine ⟨?_, by decide⟩
  have hextnb : '[' ∉ ext := by rcases hext with h | h | h <;> subst h <;> decide
  have hhd : ∀ gs : List (List Char), (annConcat gs ++ ext).head? ≠ some '[' := by
    intro gs
    cases gs with
    | nil =>
      rw [show annConcat [] = [] from rfl, List.nil_append]
      rcases hext with h | h | h <;> subst h <;> decide
    | cons a gs' =>
      rw [annConcat_cons, List.cons_append]
      simp
  have hpre : stripPrefixCI (prefLit ++ (bse ++ (annConcat anns ++ ext))) =
      bse ++ (annConcat anns ++ ext) := by
    unfold stripPrefixCI
    rw [List.take_left, List.drop_left]
    rw [if_pos (by decide)]
  obtain ⟨gs1, hok1, he1⟩ :=
    subAll_groups bpmM (fun a rest r ha h => matchBpmAt_group ha h) anns ext hanns hextnb
  obtain ⟨gs2, hok2, he2⟩ :=
    subAll_groups keyM (fun a rest r ha h => matchKeyAt_group ha h) gs1 ext hok1 hextnb
  have hchain :
      subAll anyM (subAll keyM (subAll bpmM
        (stripPrefixCI (prefLit ++ (bse ++ (annConcat anns ++ ext)))))) = bse ++ ext := by
    rw [hpre]
    rw [subAll_append_nb bpmM bse _ hb (hhd anns), he1]
    rw [subAll_append_nb keyM bse _ hb (hhd gs1), he2]
    rw [subAll_append_nb anyM bse _ hb (hhd gs2), subAll_any_groups gs2 ext hok2 hextnb]
  have hsplit : splitext (bse ++ ext) = (bse, ext) := by
    rcases hext with h | h | h <;> subst h
    · exact splitext_append_ext hdot (by decide)
    · exact splitext_append_ext hdot (by decide)
    · exact splitext_append_ext hdot (by decide)
  unfold normalizeL
  rw [hchain, hsplit]

/-- Witness for C4 at the spec's own example, decomposed as
prefix ++ stem ++ annotations ++ extension. -/
theorem C4_normalizer_removes_annotations_witness :
    normalizeL (prefLit ++ ("Intro".toList ++
      (annConcat ["128 bpm".toList, "C Major".toList, "Dark".toList] ++ ".mp3".toList))) =
      (stripWsL "Intro".toList, ".mp3".toList)
    ∧ normalizeFilename "mateo_19182 - Intro [128 bpm] [C Major] [Dark].mp3" =
      ("Intro", ".mp3") :=
  C4_normalizer_removes_annotations "Intro".toList
    ["128 bpm".toList, "C Major".toList, "Dark".toList] ".mp3".toList
    (Or.inl rfl) (by decide) ⟨'I', by decide, by decide⟩ (by decide)

/-! ## Claim C10 -/

/-- C10: every bracket-removal pattern demands that the bracketed group be
immediately preceded by a space: each of the three matchers only ever
matches at `" ["`.  Consequently a bracketed annotation at the start of the
name (not preceded by a space) survives normalization into the base name
and into the composed output filename, as the concrete conjuncts show. -/
theorem C10_bracket_patterns_need_space
    (s₁ s₂ s₃ t₁ t₂ t₃ : List Char)
    (h1 : matchBpmAt s₁ = some t₁) (h2 : matchKeyAt s₂ = some t₂)
    (h3 : matchAnyAt s₃ = some t₃) :
    (∃ u, s₁ = ' ' :: '[' :: u) ∧ (∃ u, s₂ = ' ' :: '[' :: u) ∧
    (∃ u, s₃ = ' ' :: '[' :: u) ∧
    normalizeFilename "[X] Song.mp3" = ("[X] Song", ".mp3") ∧
    processFilename [] "[X] Song.mp3" = "[X] Song.mp3" :=
  ⟨matchBpmAt_sb _ _ h1, matchKeyAt_sb _ _ h2, matchAnyAt_sb _ _ h3, by decide, by decide⟩

/-- Witness for C10 at concrete matches of all three patterns. -/
theorem C10_bracket_patterns_need_space_witness :
    (∃ u, " [12 bpm]".toList = ' ' :: '[' :: u) ∧
    (∃ u, " [C Major]".toList = ' ' :: '[' :: u) ∧
    (∃ u, " [Dark]".toList = ' ' :: '[' :: u) ∧
    normalizeFilename "[X] Song.mp3" = ("[X] Song", ".mp3") ∧
    processFilename [] "[X] Song.mp3" = "[X] Song.mp3" :=
  C10_bracket_patterns_need_space _ _ _ [] [] []
    (by decide) (by decide) (by decide)

/-! ## Matcher resolution lemmas -/

theorem foldl_inv {α β : Type} (P : β → Prop) (f : β → α → β)
    (hstep : ∀ b a, P b → P (f b a)) :
    ∀ (l : List α) (b : β), P b → P (l.foldl f b) := by
  intro l
  induction l with
  | nil => intro b hb; exact hb
  | cons a l' ih => intro b hb; exact ih (f b a) (hstep b a hb)

theorem dictSet_keys_prop (P : String → Prop) {m : List (String × List String)}
    {k : String} {v : List String}
    (hm : ∀ p ∈ m, P p.1) (hk : P k) : ∀ p ∈ dictSet m k v, P p.1 := by
  intro p hp
  unfold dictSet at hp
  split at hp
  · rcases List.mem_map.mp hp with ⟨q, hq, he⟩
    by_cases hqe : (q.1 == k) = true
    · rw [if_pos hqe] at he
      rw [←he]
      exact hk
    · rw [if_neg hqe] at he
      rw [←he]
      exact hm q hq
  · rcases List.mem_append.mp hp with h | h
    · exact hm p h
    · simp only [List.mem_singleton] at h
      rw [h]
      exact hk

/-- Every key of a loaded tag index is non-empty and already lower-case. -/
theorem load_keys_sound (d : PyRes (List TagItem)) :
    ∀ p ∈ load_name_tags_mapping d, p.1 ≠ "" ∧ pyLower p.1 = p.1 := by
  cases d with
  | exn => intro p hp; cases hp
  | ok data =>
    unfold load_name_tags_mapping
    refine foldl_inv (fun m : List (String × List String) =>
      ∀ p ∈ m, p.1 ≠ "" ∧ pyLower p.1 = p.1) _ ?_ data [] ?_
    · intro m it hm
      by_cases hcond : pyLower (pyStrip it.filename) = ""
      · rw [if_pos hcond]; exact hm
      · rw [if_neg hcond]
        exact dictSet_keys_prop (fun s => s ≠ "" ∧ pyLower s = s) hm ⟨hcond, pyLower_idem _⟩
    · intro p hp; cases hp

theorem dictSet_keys_eq (m : List (String × List String)) (k : String) (v : List String) :
    (dictSet m k v).map (·.1) =
      if m.any (fun p => p.1 == k) then m.map (·.1) else m.map (·.1) ++ [k] := by
  unfold dictSet
  split
  · rw [List.map_map]
    apply List.map_congr_left
    intro p _
    by_cases hpe : (p.1 == k) = true
    · simp only [Function.comp_apply, if_pos hpe]
      exact (beq_iff_eq.mp hpe).symm
    · simp only [Function.comp_apply, if_neg hpe]
  · rw [List.map_append]
    rfl

/-- The keys of a loaded tag index are pairwise distinct. -/
theorem load_keys_nodup (d : PyRes (List TagItem)) :
    ((load_name_tags_mapping d).map (·.1)).Nodup := by
  cases d with
  | exn => exact List.nodup_nil
  | ok data =>
    unfold load_name_tags_mapping
    refine foldl_inv (fun m : List (String × List String) =>
      (m.map (·.1)).Nodup) _ ?_ data [] List.nodup_nil
    intro m it hm
    by_cases hcond : pyLower (pyStrip it.filename) = ""
    · rw [if_pos hcond]; exact hm
    · rw [if_neg hcond]
      rw [dictSet_keys_eq]
      split
      · exact hm
      · rename_i hany
        rw [List.nodup_append]
        refine ⟨hm, List.nodup_singleton _, ?_⟩
        intro x hx hx'
        simp only [List.mem_singleton] at hx'
        rcases List.mem_map.mp hx with ⟨q, hq, he⟩
        rw [List.any_eq_true] at hany
        exact hany ⟨q, hq, by rw [beq_iff_eq, he, hx']⟩

theorem find?_key_of_mem_nodup {idx : List (String × List String)} {k : String}
    {v : List String} (hnd : (idx.map (·.1)).Nodup) (hmem : (k, v) ∈ idx) :
    idx.find? (fun p => p.1 == k) = some (k, v) := by
  induction idx with
  | nil => cases hmem
  | cons q rest ih =>
    rw [List.map_cons, List.nodup_cons] at hnd
    rcases List.mem_cons.mp hmem with he | hm
    · rw [←he, List.find?_cons]
      simp
    · have hq : (q.1 == k) = false := by
        rw [beq_eq_false_iff_ne]
        intro he
        exact hnd.1 (he ▸ List.mem_map.mpr ⟨(k, v), hm, rfl⟩)
      rw [List.find?_cons, hq]
      exact ih hnd.2 hm

/-- The bidirectional case-insensitive substring relation of the fallback. -/
def keyRel (k b : String) : Prop :=
  (pyLower k).toList <:+: (pyLower b).toList ∨ (pyLower b).toList <:+: (pyLower k).toList

instance (k b : String) : Decidable (keyRel k b) :=
  inferInstanceAs (Decidable (_ ∨ _))

theorem keyRel_bool_iff {k b : String} :
    (pyIn (pyLower k) (pyLower b) || pyIn (pyLower b) (pyLower k)) = true ↔ keyRel k b := by
  rw [Bool.or_eq_true, pyIn_iff, pyIn_iff]
  exact Iff.rfl

theorem findSubstrMatch_all_neg {idx : List (String × List String)} {base : String}
    (h : ∀ p ∈ idx, ¬ keyRel p.1 base) : findSubstrMatch idx base = [] := by
  induction idx with
  | nil => rfl
  | cons q rest ih =>
    show (if pyIn (pyLower q.1) (pyLower base) || pyIn (pyLower base) (pyLower q.1)
      then q.2 else findSubstrMatch rest base) = []
    rw [if_neg (fun hb => h q (List.mem_cons_self q rest) (keyRel_bool_iff.mp hb))]
    exact ih (fun p hp => h p (List.mem_cons_of_mem _ hp))

theorem matchTags_eq_findSubstr {idx : List (String × List String)} {base : String}
    (hnone : idx.find? (fun p => p.1 == pyLower base) = none) :
    matchTags idx base = findSubstrMatch idx base := by
  unfold matchTags
  rw [hnone]
  rfl

theorem findSubstrMatch_append_first {pre : List (String × List String)}
    {k : String} {v : List String} {post : List (String × List String)} {base : String}
    (hpre : ∀ p ∈ pre, ¬ keyRel p.1 base) (hrel : keyRel k base) :
    findSubstrMatch (pre ++ (k, v) :: post) base = v := by
  induction pre with
  | nil =>
    show (if pyIn (pyLower k) (pyLower base) || pyIn (pyLower base) (pyLower k) then v
      else findSubstrMatch post base) = v
    rw [if_pos (keyRel_bool_iff.mpr hrel)]
  | cons q pre' ih =>
    show (if pyIn (pyLower q.1) (pyLower base) || pyIn (pyLower base) (pyLower q.1) then q.2
      else findSubstrMatch (pre' ++ (k, v) :: post) base) = v
    rw [if_neg (fun hb => hpre q (List.mem_cons_self _ _) (keyRel_bool_iff.mp hb))]
    exact ih (fun p hp => hpre p (List.mem_cons_of_mem _ hp))

/-! ## Claim C3 -/

/-- C3: over a tag index with lower-cased pairwise-distinct keys (the shape
`load_name_tags_mapping` produces — see `load_keys_sound` and
`load_keys_nodup`), resolution (a) first performs a case-insensitive exact
key lookup and returns that entry's tags when one exists; otherwise it
(b) scans the index keys in stored order and returns the tags of the first
key in the bidirectional case-insensitive substring relation with the base
name, stopping there, and (c) returns the empty list when no key matches. -/
theorem C3_matcher_resolution (idx : List (String × List String)) (base : String)
    (hlow : ∀ p ∈ idx, pyLower p.1 = p.1)
    (hnd : (idx.map (·.1)).Nodup) :
    (∀ k v, (k, v) ∈ idx → pyLower k = pyLower base → matchTags idx base = v)
    ∧ (∀ pre k v post, idx = pre ++ (k, v) :: post →
        (∀ p ∈ idx, pyLower p.1 ≠ pyLower base) →
        (∀ p ∈ pre, ¬ keyRel p.1 base) → keyRel k base →
        matchTags idx base = v)
    ∧ ((∀ p ∈ idx, pyLower p.1 ≠ pyLower base) →
        (∀ p ∈ idx, ¬ keyRel p.1 base) →
        matchTags idx base = []) := by
  have hnone : (∀ p ∈ idx, pyLower p.1 ≠ pyLower base) →
      idx.find? (fun p => p.1 == pyLower base) = none := by
    intro hne
    rw [List.find?_eq_none]
    intro p hp
    rw [beq_iff_eq]
    intro he
    exact hne p hp ((hlow p hp).trans he)
  refine ⟨?_, ?_, ?_⟩
  · intro k v hmem hkb
    have hk : k = pyLower base := ((hlow (k, v) hmem).symm).trans hkb
    have hfind := find?_key_of_mem_nodup hnd hmem
    rw [hk] at hfind
    unfold matchTags
    rw [hfind]
    rfl
  · intro pre k v post hdec hne hpre hrel
    rw [matchTags_eq_findSubstr (hnone hne), hdec]
    exact findSubstrMatch_append_first hpre hrel
  · intro hne hrel
    rw [matchTags_eq_findSubstr (hnone hne)]
    exact findSubstrMatch_all_neg hrel

/-- Witness for C3: the three resolution modes at concrete indexes — exact
case-insensitive hit, first substring match, and no match. -/
theorem C3_matcher_resolution_witness :
    matchTags [("intro", ["A"])] "Intro" = ["A"]
    ∧ matchTags [("zz", ["B"]), ("tro", ["C"])] "Intro" = ["C"]
    ∧ matchTags [("zz", ["D"])] "Intro" = [] :=
  ⟨(C3_matcher_resolution [("intro", ["A"])] "Intro" (by decide) (by decide)).1
      "intro" ["A"] (by simp) (by decide),
   (C3_matcher_resolution [("zz", ["B"]), ("tro", ["C"])] "Intro"
      (by decide) (by decide)).2.1
      [("zz", ["B"])] "tro" ["C"] [] rfl (by decide) (by decide) (by decide),
   (C3_matcher_resolution [("zz", ["D"])] "Intro" (by decide) (by decide)).2.2
      (by decide) (by decide)⟩

/-! ## Claim C9 -/

/-- C9: for every non-empty tag index (whose keys are non-empty strings, as
`load_name_tags_mapping` guarantees — `load_keys_sound`), an empty base
name misses the exact lookup and the substring fallback returns the first
entry's tags, because the empty string is a substring of every key. -/
theorem C9_empty_base_first_entry (k : String) (v : List String)
    (rest : List (String × List String))
    (hkeys : ∀ p ∈ (k, v) :: rest, p.1 ≠ "") :
    matchTags ((k, v) :: rest) "" = v := by
  have hnone : ((k, v) :: rest).find? (fun p => p.1 == pyLower "") = none := by
    rw [List.find?_eq_none]
    intro p hp
    rw [beq_iff_eq]
    exact hkeys p hp
  rw [matchTags_eq_findSubstr hnone]
  show (if pyIn (pyLower k) (pyLower "") || pyIn (pyLower "") (pyLower k) then v
    else findSubstrMatch rest "") = v
  rw [if_pos]
  rw [Bool.or_eq_true]
  right
  exact subL_nil_left _

/-- Witness for C9 at a concrete two-entry index. -/
theorem C9_empty_base_first_entry_witness :
    matchTags [("intro", ["Dark"]), ("other", ["X"])] "" = ["Dark"] :=
  C9_empty_base_first_entry "intro" ["Dark"] [("other", ["X"])] (by decide)

/-! ## Claim C7 -/

theorem strToList_append (a b : String) : (a ++ b).toList = a.toList ++ b.toList := rfl

theorem foldl_spaceJoin_toList (l : List String) :
    ∀ acc : String, (l.foldl (fun a y => a ++ " " ++ y) acc).toList =
      acc.toList ++ (l.map (fun y => ' ' :: y.toList)).flatten := by
  induction l with
  | nil => intro acc; simp
  | cons y l' ih =>
    intro acc
    show (l'.foldl (fun a y => a ++ " " ++ y) (acc ++ " " ++ y)).toList = _
    rw [ih]
    simp [strToList_append]

theorem composeFilename_toList (base ext : String) (tags : List String) :
    (composeFilename base ext tags).toList =
      base.toList ++ (annConcat (tags.map (·.toList)) ++ ext.toList) := by
  cases tags with
  | nil =>
    show ((base ++ ext)).toList = _
    rw [show annConcat (([] : List String).map (·.toList)) = [] from rfl]
    rw [strToList_append, List.nil_append]
  | cons t ts =>
    show ((base ++ " " ++
      (ts.map (fun y => "[" ++ y ++ "]")).foldl (fun a y => a ++ " " ++ y)
        ("[" ++ t ++ "]")) ++ ext).toList = _
    rw [strToList_append, strToList_append, foldl_spaceJoin_toList, List.map_map]
    have hbr : ∀ y : String, ("[" ++ y ++ "]").toList = '[' :: (y.toList ++ [']']) := by
      intro y
      rw [strToList_append, strToList_append]
      rfl
    have hflat : (ts.map ((fun y => ' ' :: y.toList) ∘ (fun y => "[" ++ y ++ "]"))).flatten =
        annConcat (ts.map (·.toList)) := by
      unfold annConcat
      rw [List.map_map]
      apply congrArg
      apply List.map_congr_left
      intro y _
      simp only [Function.comp_apply, hbr]
    rw [hflat, List.map_cons, annConcat_cons, hbr]
    simp

/-- C7: the Renamer composes every output filename as the base name,
followed by one ` [tag]` group per resolved tag in list order, followed by
the extension; with an empty tag list the output is exactly
base name ++ extension with no bracket suffix; `["Dark", "Cinematic"]`
yields `"Intro [Dark] [Cinematic].mp3"`. -/
theorem C7_output_filename_format (m : List (String × List String)) (filename : String) :
    (processFilename m filename).toList =
      (normalizeFilename filename).1.toList ++
        (annConcat ((matchTags m (normalizeFilename filename).1).map (·.toList)) ++
          (normalizeFilename filename).2.toList)
    ∧ (matchTags m (normalizeFilename filename).1 = [] →
        processFilename m filename =
          (normalizeFilename filename).1 ++ (normalizeFilename filename).2)
    ∧ composeFilename "Intro" ".mp3" ["Dark", "Cinematic"] = "Intro [Dark] [Cinematic].mp3" := by
  refine ⟨composeFilename_toList _ _ _, ?_, by decide⟩
  intro h
  unfold processFilename
  rw [h]
  rfl

/-- Witness for C7 with an empty resolved tag list. -/
theorem C7_output_filename_format_witness :
    processFilename [] "Song.mp3" =
      (normalizeFilename "Song.mp3").1 ++ (normalizeFilename "Song.mp3").2 :=
  (C7_output_filename_format [] "Song.mp3").2.1 (by decide)

/-! ## Claim C2 -/

theorem extractTagsF_congr :
    ∀ f₁ f₂ s, s.length ≤ f₁ → s.length ≤ f₂ → extractTagsF f₁ s = extractTagsF f₂ s := by
  intro f₁
  induction f₁ with
  | zero =>
    intro f₂ s h1 _
    have : s = [] := List.length_eq_zero.mp (Nat.le_zero.mp h1)
    subst this
    cases f₂ <;> rfl
  | succ f ih =>
    intro f₂ s h1 h2
    cases s with
    | nil => cases f₂ <;> rfl
    | cons c cs =>
      cases f₂ with
      | zero => simp at h2
      | succ f₂' =>
        simp only [extractTagsF]
        simp only [List.length_cons] at h1 h2
        by_cases hc : c = '['
        · rw [if_pos hc, if_pos hc]
          by_cases hemp : (cs.takeWhile (· ≠ ']')).isEmpty
          · rw [if_pos hemp, if_pos hemp]
            exact ih f₂' cs (by omega) (by omega)
          · rw [if_neg hemp, if_neg hemp]
            cases hdr : cs.drop (cs.takeWhile (· ≠ ']')).length with
            | nil => exact ih f₂' cs (by omega) (by omega)
            | cons d r =>
              show (if d = ']' then cs.takeWhile (· ≠ ']') :: extractTagsF f r
                  else extractTagsF f cs) =
                (if d = ']' then cs.takeWhile (· ≠ ']') :: extractTagsF f₂' r
                  else extractTagsF f₂' cs)
              by_cases hd : d = ']'
              · rw [if_pos hd, if_pos hd]
                have hr : r.length < cs.length := by
                  have hlen := congrArg List.length hdr
                  simp [List.length_drop] at hlen
                  omega
                rw [ih f₂' r (by omega) (by omega)]
              · rw [if_neg hd, if_neg hd]
                exact ih f₂' cs (by omega) (by omega)
        · rw [if_neg hc, if_neg hc]
          exact ih f₂' cs (by omega) (by omega)

theorem extractTagsL_cons_not {c : Char} {cs : List Char} (h : c ≠ '[') :
    extractTagsL (c :: cs) = extractTagsL cs := by
  show extractTagsF (cs.length + 1) (c :: cs) = _
  simp only [extractTagsF, if_neg h]
  exact extractTagsF_congr _ _ cs (by omega) (le_refl _)

theorem extractTagsL_group {t s : List Char} (h1 : ']' ∉ t) (h2 : t ≠ []) :
    extractTagsL ('[' :: (t ++ ']' :: s)) = t :: extractTagsL s := by
  have htw : (t ++ ']' :: s).takeWhile (· ≠ ']') = t := by
    rw [takeWhile_append_not (by simp) t s]
    exact takeWhile_all t (fun x hx => by
      simp only [ne_eq, decide_eq_true_eq]
      exact fun he => h1 (he ▸ hx))
  have hfalse : t.isEmpty = false := by
    cases t with
    | nil => exact absurd rfl h2
    | cons a t' => rfl
  show (if ((t ++ ']' :: s).takeWhile (· ≠ ']')).isEmpty
      then extractTagsF (t ++ ']' :: s).length (t ++ ']' :: s)
      else
        match (t ++ ']' :: s).drop ((t ++ ']' :: s).takeWhile (· ≠ ']')).length with
        | d :: r =>
          if d = ']'
          then (t ++ ']' :: s).takeWhile (· ≠ ']') :: extractTagsF (t ++ ']' :: s).length r
          else extractTagsF (t ++ ']' :: s).length (t ++ ']' :: s)
        | [] => extractTagsF (t ++ ']' :: s).length (t ++ ']' :: s)) = t :: extractTagsL s
  rw [htw, hfalse, if_neg (by decide), List.drop_left]
  show (if ']' = ']'
      then t :: extractTagsF (t ++ ']' :: s).length s
      else extractTagsF (t ++ ']' :: s).length (t ++ ']' :: s)) = t :: extractTagsL s
  rw [if_pos rfl]
  apply congrArg
  apply extractTagsF_congr
  · simp only [List.length_append, List.length_cons]
    omega
  · exact le_refl _

theorem extractTagsL_no_open : ∀ {s : List Char}, '[' ∉ s → extractTagsL s = [] := by
  intro s h
  induction s with
  | nil => rfl
  | cons c cs ih =>
    rw [extractTagsL_cons_not (fun he => h (he ▸ List.mem_cons_self c cs))]
    exact ih (fun hm => h (List.mem_cons_of_mem _ hm))

theorem extractTagsL_append_no_open {u : List Char} (s : List Char) (h : '[' ∉ u) :
    extractTagsL (u ++ s) = extractTagsL s := by
  induction u with
  | nil => rw [List.nil_append]
  | cons c u' ih =>
    rw [List.cons_append,
      extractTagsL_cons_not (fun he => h (he ▸ List.mem_cons_self c u'))]
    exact ih (fun hm => h (List.mem_cons_of_mem _ hm))

theorem extractTagsL_groups (ts : List (List Char)) (e : List Char)
    (hts : ∀ t ∈ ts, t ≠ [] ∧ ']' ∉ t) (he : '[' ∉ e) :
    extractTagsL (annConcat ts ++ e) = ts := by
  induction ts with
  | nil =>
    rw [show annConcat [] = [] from rfl, List.nil_append]
    exact extractTagsL_no_open he
  | cons t ts' ih =>
    rw [annConcat_cons, List.cons_append, List.cons_append]
    rw [extractTagsL_cons_not (by decide)]
    rw [show (t ++ ']' :: annConcat ts') ++ e = t ++ ']' :: (annConcat ts' ++ e) by simp]
    rw [extractTagsL_group (hts t (List.mem_cons_self t ts')).2
      (hts t (List.mem_cons_self t ts')).1]
    rw [ih (fun x hx => hts x (List.mem_cons_of_mem _ hx))]

/-- C2 (amended): the tags the Upload Client extracts from a
Renamer-produced filename equal the tags the Matcher resolved, provided
the normalized base name and extension contain no `[` and every resolved
tag is non-empty and contains no `]` (the unrestricted claim fails, see
the counterexample: a surviving bracket group in the base name is
re-extracted as a tag). -/
theorem C2_roundtrip_amended (m : List (String × List String)) (filename : String)
    (hb1 : '[' ∉ (normalizeFilename filename).1.toList)
    (he1 : '[' ∉ (normalizeFilename filename).2.toList)
    (htags : ∀ t ∈ matchTags m (normalizeFilename filename).1, t ≠ "" ∧ ']' ∉ t.toList) :
    extractTags (processFilename m filename) =
      matchTags m (normalizeFilename filename).1 := by
  unfold extractTags processFilename
  rw [composeFilename_toList]
  rw [extractTagsL_append_no_open _ hb1]
  rw [extractTagsL_groups ((matchTags m (normalizeFilename filename).1).map (·.toList))
    (normalizeFilename filename).2.toList ?_ he1]
  · rw [List.map_map]
    have : ∀ t ∈ matchTags m (normalizeFilename filename).1,
        (List.asString ∘ fun x : String => x.toList) t = id t := by
      intro t _
      exact String.asString_toList t
    rw [List.map_congr_left this, List.map_id]
  · intro t ht
    rcases List.mem_map.mp ht with ⟨y, hy, he⟩
    refine ⟨?_, ?_⟩
    · rw [←he]
      intro hnil
      exact (htags y hy).1 (by
        have := congrArg List.asString hnil
        rwa [String.asString_toList y] at this)
    · rw [←he]
      exact (htags y hy).2

/-- Witness for C2 (amended) on a prefixed, BPM-annotated filename with an
exact index hit. -/
theorem C2_roundtrip_amended_witness :
    extractTags (processFilename [("song", ["Dark", "Cinematic"])]
        "mateo_19182 - Song [128 bpm].mp3") =
      matchTags [("song", ["Dark", "Cinematic"])]
        (normalizeFilename "mateo_19182 - Song [128 bpm].mp3").1 :=
  C2_roundtrip_amended [("song", ["Dark", "Cinematic"])]
    "mateo_19182 - Song [128 bpm].mp3" (by decide) (by decide) (by decide)

/-- Counterexample to C2 as stated: a leading bracket group is not removed
by normalization (it is not preceded by a space), survives into the output
filename, and is re-extracted by the Upload Client although the Matcher
resolved no tags. -/
theorem C2_roundtrip_cex :
    extractTags (processFilename [("zzz", ["T"])] "[X] Song.mp3") ≠
      matchTags [("zzz", ["T"])] (normalizeFilename "[X] Song.mp3").1
    ∧ extractTags (processFilename [("zzz", ["T"])] "[X] Song.mp3") = ["X"]
    ∧ matchTags [("zzz", ["T"])] (normalizeFilename "[X] Song.mp3").1 = [] := by
  refine ⟨by decide, by decide, by decide⟩

/-! ## Claim C6 -/

/-- C6: when the tags file is missing (`tagsFileExists = false`) or its
read/parse raises (missing permissions or malformed JSON — both `.exn`),
the rename run aborts before touching any file: no copy is performed and
the filesystem is unchanged. -/
theorem C6_abort_before_any_copy
    (inputDirExists tagsFileExists : Bool) (readJson : PyRes (List TagItem))
    (inDir outDir : String) (listing : List String) (fs0 : String → Option Nat)
    (h : tagsFileExists = false ∨ readJson = .exn) :
    (main_rename inputDirExists tagsFileExists readJson inDir outDir listing fs0).copies = []
    ∧ (main_rename inputDirExists tagsFileExists readJson inDir outDir
        listing fs0).finalFS fs0 = fs0 := by
  rcases h with h | h
  · subst h
    unfold main_rename
    by_cases hin : inputDirExists = false
    · rw [if_pos hin]
      exact ⟨rfl, rfl⟩
    · rw [if_neg hin, if_pos rfl]
      exact ⟨rfl, rfl⟩
  · subst h
    unfold main_rename
    by_cases hin : inputDirExists = false
    · rw [if_pos hin]
      exact ⟨rfl, rfl⟩
    · rw [if_neg hin]
      by_cases htf : tagsFileExists = false
      · rw [if_pos htf]
        exact ⟨rfl, rfl⟩
      · rw [if_neg htf]
        rw [if_pos (show (load_name_tags_mapping .exn).isEmpty = true from rfl)]
        exact ⟨rfl, rfl⟩

/-- Witness for C6: malformed JSON aborts a run over a non-empty listing. -/
theorem C6_abort_before_any_copy_witness :
    (main_rename true true .exn "in" "out" ["a.mp3"] (fun _ => some 0)).copies = []
    ∧ (main_rename true true .exn "in" "out" ["a.mp3"]
        (fun _ => some 0)).finalFS (fun _ => some 0) = (fun _ => some 0) :=
  C6_abort_before_any_copy true true .exn "in" "out" ["a.mp3"] (fun _ => some 0)
    (Or.inr rfl)

/-! ## Claim C8 -/

theorem renameStep_inv (inDir outDir : String) (m : List (String × List String))
    (fs0 : String → Option Nat) (listingAll : List String)
    (hsep : ∀ f ∈ listingAll, ∀ g, pathJoin outDir g ≠ pathJoin inDir f)
    (st : RenameState) (x : String)
    (h1 : ∀ f ∈ listingAll, st.fs (pathJoin inDir f) = fs0 (pathJoin inDir f))
    (h2 : ∀ p, st.fs p ≠ fs0 p → ∃ g, p = pathJoin outDir g) :
    (∀ f ∈ listingAll,
      (renameStep inDir outDir m st x).fs (pathJoin inDir f) = fs0 (pathJoin inDir f))
    ∧ (∀ p, (renameStep inDir outDir m st x).fs p ≠ fs0 p → ∃ g, p = pathJoin outDir g) := by
  unfold renameStep
  split
  · split
    · exact ⟨h1, h2⟩
    · constructor
      · intro f hf
        show (if pathJoin inDir f = pathJoin outDir (processFilename m x)
          then st.fs (pathJoin inDir x) else st.fs (pathJoin inDir f)) = _
        rw [if_neg (fun he => hsep f hf (processFilename m x) he.symm)]
        exact h1 f hf
      · intro p hp
        show ∃ g, p = pathJoin outDir g
        by_cases hpd : p = pathJoin outDir (processFilename m x)
        · exact ⟨processFilename m x, hpd⟩
        · apply h2 p
          have : (if p = pathJoin outDir (processFilename m x)
              then st.fs (pathJoin inDir x) else st.fs p) ≠ fs0 p := hp
          rwa [if_neg hpd] at this
  · exact ⟨h1, h2⟩

/-- C8 (amended): provided no path under the destination directory
coincides with a source path of the listing (in particular whenever the
destination directory differs from the source directory), every source
file's contents are unchanged by a rename run; and unconditionally within
this hypothesis, every path the run changes lies under the destination
directory — the renamer copies, it never moves. -/
theorem C8_copy_not_move_amended (inDir outDir : String)
    (m : List (String × List String)) (listing : List String)
    (fs0 : String → Option Nat)
    (hsep : ∀ f ∈ listing, ∀ g, pathJoin outDir g ≠ pathJoin inDir f) :
    (∀ f ∈ listing,
      (rename_files inDir outDir m listing fs0).fs (pathJoin inDir f) =
        fs0 (pathJoin inDir f))
    ∧ (∀ p, (rename_files inDir outDir m listing fs0).fs p ≠ fs0 p →
        ∃ g, p = pathJoin outDir g) := by
  unfold rename_files
  have hgen : ∀ (l : List String) (st : RenameState),
      (∀ f ∈ listing, st.fs (pathJoin inDir f) = fs0 (pathJoin inDir f)) →
      (∀ p, st.fs p ≠ fs0 p → ∃ g, p = pathJoin outDir g) →
      (∀ f ∈ listing,
        (l.foldl (renameStep inDir outDir m) st).fs (pathJoin inDir f) =
          fs0 (pathJoin inDir f))
      ∧ (∀ p, (l.foldl (renameStep inDir outDir m) st).fs p ≠ fs0 p →
          ∃ g, p = pathJoin outDir g) := by
    intro l
    induction l with
    | nil => intro st ha hb; exact ⟨ha, hb⟩
    | cons x l' ih =>
      intro st ha hb
      obtain ⟨ha', hb'⟩ := renameStep_inv inDir outDir m fs0 listing hsep st x ha hb
      exact ih (renameStep inDir outDir m st x) ha' hb'
  exact hgen listing ⟨fs0, 0, 0, []⟩ (fun f _ => rfl) (fun p hp => absurd rfl hp)

/-- Witness for C8 (amended) with distinct source and destination
directories. -/
theorem C8_copy_not_move_amended_witness :
    (∀ f ∈ ["x.mp3"],
      (rename_files "a" "b" [] ["x.mp3"] (fun p => if p = "a/x.mp3" then some 7 else none)).fs
          (pathJoin "a" f) =
        (fun p => if p = "a/x.mp3" then some 7 else none) (pathJoin "a" f))
    ∧ (∀ p, (rename_files "a" "b" [] ["x.mp3"]
          (fun p => if p = "a/x.mp3" then some 7 else none)).fs p ≠
        (fun p => if p = "a/x.mp3" then some 7 else none) p →
        ∃ g, p = pathJoin "b" g) :=
  C8_copy_not_move_amended "a" "b" [] ["x.mp3"]
    (fun p => if p = "a/x.mp3" then some 7 else none)
    (by
      intro f hf g he
      have hl := congrArg String.toList he
      rw [show (pathJoin "b" g).toList = 'b' :: '/' :: g.toList from rfl] at hl
      have hf' : f = "x.mp3" := by simpa using hf
      rw [hf', show (pathJoin "a" "x.mp3").toList = 'a' :: '/' :: "x.mp3".toList from rfl] at hl
      injection hl with hb _
      exact absurd hb (by decide))

/-- The source filesystem of the C8 counterexample: two audio files in the
directory `d`. -/
def fsC8 : String → Option Nat := fun p =>
  if p = "d/A [X].mp3" then some 1 else if p = "d/A.mp3" then some 2 else none

/-- Counterexample to C8 as stated: running the renamer with the
destination directory equal to the source directory overwrites the source
file `d/A.mp3` with the bytes of `d/A [X].mp3` (whose cleaned name
collides), so a source file does not keep its bytes. -/
theorem C8_copy_not_move_cex :
    (rename_files "d" "d" [] ["A [X].mp3", "A.mp3"] fsC8).fs "d/A.mp3" ≠ fsC8 "d/A.mp3"
    ∧ (rename_files "d" "d" [] ["A [X].mp3", "A.mp3"] fsC8).fs "d/A.mp3" = some 1
    ∧ fsC8 "d/A.mp3" = some 2 :=
  ⟨by decide, by decide, rfl⟩

/-! ## Claim C1 -/

theorem uploadSuccB_eq (env : UploadEnv) (f : String) :
    uploadSuccB env f =
      (match upload_file env f with
       | some v => v.truthy
       | none => false) := by
  unfold uploadSuccB upload_file
  cases env.openFile f with
  | exn => rfl
  | ok _ =>
    cases env.post f (extractTags (pathBasename f)) with
    | exn => rfl
    | ok r =>
      dsimp only
      by_cases hs : (r.status_code = 200 || r.status_code = 201) = true
      · rw [if_pos hs, hs, Bool.true_and]
        cases r.jsonBody <;> rfl
      · rw [if_neg hs, (Bool.not_eq_true _).mp hs, Bool.false_and]

theorem countP_not_add {p : String → Bool} :
    ∀ l : List String, l.countP p + l.countP (fun f => !p f) = l.length := by
  intro l
  induction l with
  | nil => rfl
  | cons x l' ih =>
    rw [List.countP_cons, List.countP_cons, List.length_cons]
    by_cases hx : p x = true
    · have e1 : (if p x = true then 1 else 0) = 1 := if_pos hx
      have e2 : (if (!p x) = true then 1 else 0) = 0 := by rw [hx]; rfl
      rw [e1, e2]
      omega
    · have hxf := (Bool.not_eq_true _).mp hx
      have e1 : (if p x = true then 1 else 0) = 0 := by rw [hxf]; rfl
      have e2 : (if (!p x) = true then 1 else 0) = 1 := by rw [hxf]; rfl
      rw [e1, e2]
      omega

theorem upload_fold_count (env : UploadEnv) :
    ∀ (l : List String) (a b : Nat),
      l.foldl (fun acc fp =>
        match upload_file env fp with
        | some v => if v.truthy then (acc.1 + 1, acc.2) else (acc.1, acc.2 + 1)
        | none => (acc.1, acc.2 + 1)) (a, b) =
      (a + l.countP (uploadSuccB env), b + l.countP (fun f => !uploadSuccB env f)) := by
  intro l
  induction l with
  | nil => intro a b; simp
  | cons f l' ih =>
    intro a b
    rw [List.foldl_cons]
    dsimp only
    rw [List.countP_cons, List.countP_cons]
    cases huf : upload_file env f with
    | some v =>
      have hsb : uploadSuccB env f = v.truthy := by rw [uploadSuccB_eq, huf]
      dsimp only
      by_cases hv : v.truthy = true
      · rw [if_pos hv, ih (a + 1) b]
        have e1 : (if uploadSuccB env f = true then 1 else 0) = 1 := by
          rw [hsb]; exact if_pos hv
        have e2 : (if (!uploadSuccB env f) = true then 1 else 0) = 0 := by
          rw [hsb, hv]; rfl
        rw [e1, e2]
        exact congrArg₂ Prod.mk (by omega) (by omega)
      · have hvf := (Bool.not_eq_true _).mp hv
        rw [if_neg hv, ih a (b + 1)]
        have e1 : (if uploadSuccB env f = true then 1 else 0) = 0 := by
          rw [hsb, hvf]; rfl
        have e2 : (if (!uploadSuccB env f) = true then 1 else 0) = 1 := by
          rw [hsb, hvf]; rfl
        rw [e1, e2]
        exact congrArg₂ Prod.mk (by omega) (by omega)
    | none =>
      have hsb : uploadSuccB env f = false := by rw [uploadSuccB_eq, huf]
      dsimp only
      rw [ih a (b + 1)]
      have e1 : (if uploadSuccB env f = true then 1 else 0) = 0 := by
        rw [hsb]; rfl
      have e2 : (if (!uploadSuccB env f) = true then 1 else 0) = 1 := by
        rw [hsb]; rfl
      rw [e1, e2]
      exact congrArg₂ Prod.mk (by omega) (by omega)

/-- The eight files of the (5 successes, 3 failures) example. -/
def filesC1 : List String :=
  ["s1.mp3", "s2.mp3", "s3.mp3", "s4.mp3", "s5.mp3", "f1.mp3", "f2.mp3", "f3.mp3"]

/-- An oracle giving five 200-with-truthy-payload responses and three 500
responses. -/
def envC1ok : UploadEnv :=
  ⟨fun _ => .ok (),
   fun p _ =>
     if p ∈ ["s1.mp3", "s2.mp3", "s3.mp3", "s4.mp3", "s5.mp3"]
     then .ok ⟨200, .ok (.dict [("id", .int 1)]), []⟩
     else .ok ⟨500, .exn, []⟩⟩

/-- C1 (amended): a batch upload run counts as a success exactly those
discovered audio files whose open succeeded, whose POST returned status 200
or 201, and whose parsed JSON payload is truthy; every other discovered
audio file (non-2xx status, network exception, unreadable file, unparseable
or falsy payload) is counted as a failure; the two counts partition the
discovered audio files, so no exception escapes the batch, and the
(5 truthy-200s, 3 non-2xx) run returns (5, 3). -/
theorem C1_upload_batch_counts (env : UploadEnv) (walkFiles : List String) :
    (upload_directory env walkFiles).1 =
        (walkFiles.filter isAudioUpload).countP (uploadSuccB env)
    ∧ (upload_directory env walkFiles).2 =
        (walkFiles.filter isAudioUpload).countP (fun f => !uploadSuccB env f)
    ∧ (upload_directory env walkFiles).1 + (upload_directory env walkFiles).2 =
        (walkFiles.filter isAudioUpload).length
    ∧ upload_directory envC1ok filesC1 = (5, 3) := by
  have hfold := upload_fold_count env (walkFiles.filter isAudioUpload) 0 0
  have h1 : (upload_directory env walkFiles).1 =
      (walkFiles.filter isAudioUpload).countP (uploadSuccB env) := by
    unfold upload_directory
    rw [hfold]
    simp
  have h2 : (upload_directory env walkFiles).2 =
      (walkFiles.filter isAudioUpload).countP (fun f => !uploadSuccB env f) := by
    unfold upload_directory
    rw [hfold]
    simp
  refine ⟨h1, h2, ?_, by decide⟩
  rw [h1, h2]
  exact countP_not_add _

/-- An oracle answering every POST with a 200 response whose JSON payload
is the empty dict (a falsy value). -/
def envC1bad : UploadEnv :=
  ⟨fun _ => .ok (), fun _ _ => .ok ⟨200, .ok (.dict []), []⟩⟩

/-- Counterexample to C1 as stated: a file whose upload request receives
HTTP status 200 is nevertheless counted as a failure, because the parsed
payload (an empty dict) is falsy and `upload_directory` tests `if result:`;
the run returns (0, 1) where the claim requires (1, 0). -/
theorem C1_upload_batch_counts_cex :
    upload_directory envC1bad ["a.mp3"] = (0, 1)
    ∧ envC1bad.post "a.mp3" (extractTags (pathBasename "a.mp3")) =
        .ok ⟨200, .ok (.dict []), []⟩
    ∧ (0, 1) ≠ (1, 0) :=
  ⟨by decide, rfl, by decide⟩

/-! ## Claim C5 -/

/-- C5: (i) when the CSRF fetch returns a non-200 status, Strategy A fails
with only that single GET in its trace — it never reaches the sign-in POST —
and `login` then runs Strategy B (the direct callback) and returns its
outcome; (ii) a network exception during the CSRF fetch is caught, fails
Strategy A the same way, and control still falls through to Strategy B;
(iii) a network exception during Strategy B's POST is caught and yields
that strategy's failure (`None`) instead of propagating. -/
theorem C5_auth_fallback (env1 env2 env3 : AuthEnv) (base email password : String)
    (jar : List (String × String)) (r : Response)
    (h1 : env1.req (.get (csrfUrl base)) = .ok r) (h2 : r.status_code ≠ 200)
    (h3 : env2.req (.get (csrfUrl base)) = .exn)
    (h4 : env3.req (.post (callbackUrl base) (directData base email password)) = .exn) :
    (login_nextauth env1 base email password jar =
        ⟨none, updateJar jar r.cookies, [.get (csrfUrl base)]⟩)
    ∧ (login env1 base email password jar =
        ⟨(login_direct env1 base email password (updateJar jar r.cookies)).token,
         (login_direct env1 base email password (updateJar jar r.cookies)).jar,
         [.get (csrfUrl base)] ++
           (login_direct env1 base email password (updateJar jar r.cookies)).trace⟩)
    ∧ (login_nextauth env2 base email password jar = ⟨none, jar, [.get (csrfUrl base)]⟩)
    ∧ (login env2 base email password jar =
        ⟨(login_direct env2 base email password jar).token,
         (login_direct env2 base email password jar).jar,
         [.get (csrfUrl base)] ++ (login_direct env2 base email password jar).trace⟩)
    ∧ (login_direct env3 base email password jar =
        ⟨none, jar, [.post (callbackUrl base) (directData base email password)]⟩) := by
  have hna1 : login_nextauth env1 base email password jar =
      ⟨none, updateJar jar r.cookies, [.get (csrfUrl base)]⟩ := by
    unfold login_nextauth
    rw [h1]
    dsimp only
    rw [if_pos h2]
  have hna2 : login_nextauth env2 base email password jar =
      ⟨none, jar, [.get (csrfUrl base)]⟩ := by
    unfold login_nextauth
    rw [h3]
  refine ⟨hna1, ?_, hna2, ?_, ?_⟩
  · unfold login
    rw [hna1]
  · unfold login
    rw [hna2]
  · unfold login_direct
    rw [h4]

/-- The C5 witness oracle for Strategy A's non-200 CSRF response. -/
def envC5a : AuthEnv :=
  ⟨fun q =>
    match q with
    | .get _ => .ok ⟨500, .exn, []⟩
    | .post _ _ => .ok ⟨200, .exn, []⟩⟩

/-- The C5 witness oracle raising a network exception on every request. -/
def envC5b : AuthEnv := ⟨fun _ => .exn⟩

/-- Witness for C5 at concrete oracles. -/
theorem C5_auth_fallback_witness :
    (login_nextauth envC5a "http://h" "e" "p" [] =
        ⟨none, updateJar [] (Response.mk 500 .exn []).cookies, [.get (csrfUrl "http://h")]⟩)
    ∧ (login_direct envC5b "http://h" "e" "p" [] =
        ⟨none, [], [.post (callbackUrl "http://h") (directData "http://h" "e" "p")]⟩) :=
  ⟨(C5_auth_fallback envC5a envC5b envC5b "http://h" "e" "p" [] ⟨500, .exn, []⟩
      rfl (by decide) rfl rfl).1,
   (C5_auth_fallback envC5a envC5b envC5b "http://h" "e" "p" [] ⟨500, .exn, []⟩
      rfl (by decide) rfl rfl).2.2.2.2⟩
